import Mathlib

/-!
Verification of the Beier-Neely feature-based image morphing core
(`morph_algorithm.py`): line-relative coordinates, the multi-line warp
kernel, raster warp with bilinear resampling, line-set interpolation
(pairwise and barycentric), N-way blending and the merge orchestrator.

Real (exact) arithmetic models the Python float computations; machine
integers (uint8 pixel channels) are modelled as integers with an explicit
truncate-and-wrap quantisation.
-/

open scoped BigOperators

noncomputable section

open Classical in
/-- A 2-D point (x, y), as in the numpy arrays of the source. -/
abbrev Point : Type := ℝ × ℝ

/-- A feature line: an ordered pair (P, Q) of points. -/
abbrev MLine : Type := Point × Point

/-- Dot product of two 2-D vectors, `np.dot`. -/
def dot (u v : Point) : ℝ := u.1 * v.1 + u.2 * v.2

/-- Rotate a vector by 90 degrees: `np.array([-PQ[1], PQ[0]])`. -/
def perp (v : Point) : Point := (-v.2, v.1)

/-- Euclidean norm, `np.linalg.norm`. -/
def vnorm (v : Point) : ℝ := Real.sqrt (v.1 ^ 2 + v.2 ^ 2)

/-- The degeneracy threshold `1e-6` used throughout `morph_algorithm.py`. -/
def eps : ℝ := 1 / 1000000

open Classical in
/-- `compute_uv(X, P, Q)` from `morph_algorithm.py` lines 10-43:
u is the fractional projection of X onto PQ, v the signed perpendicular
distance; a line shorter than `eps` returns (0, 0). -/
def compute_uv (X P Q : Point) : ℝ × ℝ :=
  let PQ := Q - P
  let length_PQ := vnorm PQ
  if length_PQ < eps then (0, 0)
  else (dot (X - P) PQ / length_PQ ^ 2, dot (X - P) (perp PQ) / length_PQ)

open Classical in
/-- `compute_X_prime(u, v, P_prime, Q_prime)` from `morph_algorithm.py`
lines 46-76: maps line-relative coordinates back to a point against the
source line; a line shorter than `eps` returns its first endpoint.
`v * PQ_prime_perp_normalized` is written `(v / length) • perp PQ`. -/
def compute_X_prime (u v : ℝ) (P_prime Q_prime : Point) : Point :=
  let PQ := Q_prime - P_prime
  let length_PQ := vnorm PQ
  if length_PQ < eps then P_prime
  else P_prime + u • PQ + (v / length_PQ) • perp PQ

open Classical in
/-- One iteration of the per-line loop of `warp_image_with_lines`
(`morph_algorithm.py` lines 120-156): returns (weight * D_i, weight) for
one destination/source line pair.  `^` on reals is `Real.rpow`, matching
the Python float `**`. -/
def line_contribution (X : Point) (dl sl : MLine) (a b p : ℝ) : Point × ℝ :=
  let uv := compute_uv X dl.1 dl.2
  let X_prime_i := compute_X_prime uv.1 uv.2 sl.1 sl.2
  let D_i := X_prime_i - X
  let length_PQ := vnorm (dl.2 - dl.1)
  let dist :=
    if length_PQ < eps then vnorm (X - dl.1)
    else if uv.1 < 0 then vnorm (X - dl.1)
    else if uv.1 > 1 then vnorm (X - dl.2)
    else |uv.2|
  let weight := length_PQ ^ p / (a + dist) ^ b
  (weight • D_i, weight)

open Classical in
/-- The accumulation loop and final division of `warp_image_with_lines`
(lines 116-162), run on the pairs of corresponding destination and source
lines.  `List.zip` pairs `dest_lines[i]` with `source_lines[i]`. -/
def warp_kernel_run (X : Point) (source_lines dest_lines : List MLine) (a b p : ℝ) : Point :=
  let pairs := dest_lines.zip source_lines
  let DSUM := (pairs.map (fun pr => (line_contribution X pr.1 pr.2 a b p).1)).sum
  let weightsum := (pairs.map (fun pr => (line_contribution X pr.1 pr.2 a b p).2)).sum
  if 0 < weightsum then X + weightsum⁻¹ • DSUM else X

open Classical in
/-- The multi-line warp kernel as a fallible call: indexing
`source_lines[i]` for `i < len(dest_lines)` raises IndexError when the
source list is shorter, modelled as `none`. -/
def warp_kernel (X : Point) (source_lines dest_lines : List MLine) (a b p : ℝ) :
    Option Point :=
  if source_lines.length < dest_lines.length then none
  else some (warp_kernel_run X source_lines dest_lines a b p)

/-- A raster: width, height and the pixel grid `pix row col` (one channel;
channels are interpolated independently, so one integer per position models
the per-channel behaviour). -/
structure Raster where
  width : ℕ
  height : ℕ
  pix : ℕ → ℕ → ℤ

/-- `astype(np.uint8)` on the (non-negative) bilinear result: truncate the
fractional part and wrap into 0..255. -/
def quantU8 (r : ℝ) : ℤ := Int.floor r % 256

open Classical in
/-- The per-pixel body of `warp_image_with_lines` (lines 109-189): run the
kernel, clamp the source position, then bilinear interpolation when a full
2x2 neighbourhood is available, else nearest-pixel copy.  Python `int()`
truncation on the clamped non-negative coordinates is `Int.floor`. -/
def warp_pixel (img : Raster) (source_lines dest_lines : List MLine)
    (a b p : ℝ) (y x : ℕ) : ℤ :=
  if dest_lines = [] then img.pix y x
  else
    let X_source := warp_kernel_run ((x : ℝ), (y : ℝ)) source_lines dest_lines a b p
    let src_x := max 0 (min ((img.width : ℝ) - 1) X_source.1)
    let src_y := max 0 (min ((img.height : ℝ) - 1) X_source.2)
    if 0 ≤ src_x ∧ src_x < (img.width : ℝ) - 1 ∧ 0 ≤ src_y ∧ src_y < (img.height : ℝ) - 1 then
      let x0 := (Int.floor src_x).toNat
      let y0 := (Int.floor src_y).toNat
      let dx := src_x - (x0 : ℝ)
      let dy := src_y - (y0 : ℝ)
      quantU8 ((1 - dx) * (1 - dy) * (img.pix y0 x0 : ℝ)
        + dx * (1 - dy) * (img.pix y0 (x0 + 1) : ℝ)
        + (1 - dx) * dy * (img.pix (y0 + 1) x0 : ℝ)
        + dx * dy * (img.pix (y0 + 1) (x0 + 1) : ℝ))
    else img.pix (Int.floor src_y).toNat (Int.floor src_x).toNat

open Classical in
/-- `warp_image_with_lines` (lines 79-191).  The call fails (IndexError
from `source_lines[i]`) exactly when some pixel is visited, the
destination list is non-empty and the source list is shorter. -/
def warp_image_with_lines (img : Raster) (source_lines dest_lines : List MLine)
    (a b p : ℝ) : Option Raster :=
  if img.width ≠ 0 ∧ img.height ≠ 0 ∧ dest_lines ≠ [] ∧
      source_lines.length < dest_lines.length then none
  else some ⟨img.width, img.height,
    fun y x => warp_pixel img source_lines dest_lines a b p y x⟩

/-- `interpolate_lines(lines1, lines2, alpha)` (lines 194-216): iterates
over the indices of `lines1`, reading `lines2[i]`.  When `lines2` is
shorter this raises IndexError (`none`); when `lines2` is longer the extra
lines are silently dropped (`List.zipWith` truncates at `lines1`).
`interp_line` is the loop body (lines 208-214). -/
def interp_line (alpha : ℝ) (l1 l2 : MLine) : MLine :=
  (((1 - alpha) * l1.1.1 + alpha * l2.1.1, (1 - alpha) * l1.1.2 + alpha * l2.1.2),
   ((1 - alpha) * l1.2.1 + alpha * l2.2.1, (1 - alpha) * l1.2.2 + alpha * l2.2.2))

def interpolate_lines (lines1 lines2 : List MLine) (alpha : ℝ) : Option (List MLine) :=
  if lines2.length < lines1.length then none
  else some (List.zipWith (interp_line alpha) lines1 lines2)

open Classical in
/-- The weight normalisation block shared by `blend_multiple_images`
(lines 258-265), `interpolate_multiple_lines` (lines 297-303) and
`merge_multiple_images` (lines 355-361): divide by the sum when it is
positive, else substitute the uniform vector 1/N. -/
def normalize_weights (weights : List ℝ) : List ℝ :=
  if 0 < weights.sum then weights.map (fun w => w / weights.sum)
  else weights.map (fun _ => 1 / (weights.length : ℝ))

/-- `blend_multiple_images(images, weights)` (lines 239-275): validate,
normalise the weights, and form the per-channel weighted sum, cast back to
uint8.  All images are documented to share one size; the blend reads each
at the same position. -/
def blend_multiple_images (images : List Raster) (weights : List ℝ) : Option Raster :=
  if images.length = 0 then none
  else if images.length ≠ weights.length then none
  else some ⟨(images.headD ⟨0, 0, fun _ _ => 0⟩).width,
    (images.headD ⟨0, 0, fun _ _ => 0⟩).height,
    fun y x => quantU8
      (((images.zip (normalize_weights weights)).map
        (fun pr => pr.2 * (pr.1.pix y x : ℝ))).sum)⟩

/-- `interpolate_multiple_lines(line_sets, weights)` (lines 278-325):
validate, normalise, and take the weighted average of the i-th line of
every set, for each i. -/
def interpolate_multiple_lines (line_sets : List (List MLine)) (weights : List ℝ) :
    Option (List MLine) :=
  if line_sets.length = 0 then none
  else if line_sets.length ≠ weights.length then none
  else
    let nws := normalize_weights weights
    let num_lines := (line_sets.headD []).length
    if line_sets.any (fun ls => ls.length ≠ num_lines) then none
    else some ((List.range num_lines).map (fun i =>
      (((line_sets.zip nws).map (fun pr => pr.2 • (pr.1.getD i default).1)).sum,
       ((line_sets.zip nws).map (fun pr => pr.2 • (pr.1.getD i default).2)).sum)))

/-- Line scaling in the resize branch of `merge_multiple_images`
(lines 374-377). -/
def scale_line (sx sy : ℝ) (l : MLine) : MLine :=
  ((l.1.1 * sx, l.1.2 * sy), (l.2.1 * sx, l.2.2 * sy))

open Classical in
/-- `merge_multiple_images(images, line_sets, weights, a, b, p)`
(lines 328-395).  The PIL LANCZOS resampling of the resize branch is not
arithmetic the model can reproduce, so the resize operation is a parameter;
every image already matching the first size is passed through untouched,
exactly as in the source.  Raised ValueErrors are `none`. -/
def merge_multiple_images (resize : Raster → ℕ → ℕ → Raster)
    (images : List Raster) (line_sets : List (List MLine)) (weights : List ℝ)
    (a b p : ℝ) : Option (Raster × List Raster × List MLine) :=
  if images.length = 0 then none
  else if ¬(images.length = line_sets.length ∧ line_sets.length = weights.length) then none
  else
    let nws := normalize_weights weights
    let target_w := (images.headD ⟨0, 0, fun _ _ => 0⟩).width
    let target_h := (images.headD ⟨0, 0, fun _ _ => 0⟩).height
    let adjusted :=
      match images.zip line_sets with
      | [] => []
      | pr0 :: rest => pr0 :: rest.map (fun (pr : Raster × List MLine) =>
          if pr.1.width = target_w ∧ pr.1.height = target_h then pr
          else (resize pr.1 target_w target_h,
            pr.2.map (scale_line ((target_w : ℝ) / (pr.1.width : ℝ))
              ((target_h : ℝ) / (pr.1.height : ℝ)))))
    match interpolate_multiple_lines (adjusted.map Prod.snd) nws with
    | none => none
    | some shared_lines =>
      match adjusted.mapM (fun (pr : Raster × List MLine) =>
          warp_image_with_lines pr.1 pr.2 shared_lines a b p) with
      | none => none
      | some warped_images =>
        match blend_multiple_images warped_images nws with
        | none => none
        | some merged_image => some (merged_image, warped_images, shared_lines)

open Classical in
/-- `warp_grid_points(grid_lines, source_lines, dest_lines, a, b, p,
samples_per_line)` (lines 427-512): sample `samples_per_line + 1` points
along each grid line and push each through the same kernel computation
that `warp_image_with_lines` inlines (the loop body of lines 463-506 is
textually the pixel-loop body of lines 116-162).  With a non-empty grid,
`samples_per_line = 0` raises ZeroDivisionError at `t = i / 0`, and a
source list shorter than a non-empty destination list raises IndexError. -/
def warp_grid_points (grid_lines source_lines dest_lines : List MLine)
    (a b p : ℝ) (samples_per_line : ℕ) : Option (List (List Point)) :=
  if grid_lines ≠ [] ∧ (samples_per_line = 0 ∨
      (dest_lines ≠ [] ∧ source_lines.length < dest_lines.length)) then none
  else some (grid_lines.map (fun gl =>
    (List.range (samples_per_line + 1)).map (fun (i : ℕ) =>
      let t := (i : ℝ) / (samples_per_line : ℝ)
      let X : Point := (gl.1.1 * (1 - t) + gl.2.1 * t, gl.1.2 * (1 - t) + gl.2.2 * t)
      if dest_lines = [] then X
      else warp_kernel_run X source_lines dest_lines a b p)))

open Classical in
/-- The weight of line i as the spec sentence words it: dist chosen by the
u-trichotomy alone (no special case for a degenerate destination line). -/
def spec_weight (X : Point) (dl : MLine) (a b p : ℝ) : ℝ :=
  let uv := compute_uv X dl.1 dl.2
  let dist :=
    if uv.1 < 0 then vnorm (X - dl.1)
    else if uv.1 > 1 then vnorm (X - dl.2)
    else |uv.2|
  vnorm (dl.2 - dl.1) ^ p / (a + dist) ^ b

open Classical in
/-- The weight of line i with the correction the code forces: when the
destination line is degenerate (length below eps), dist is the distance
from X to its first endpoint. -/
def spec_weight_amended (X : Point) (dl : MLine) (a b p : ℝ) : ℝ :=
  let uv := compute_uv X dl.1 dl.2
  let dist :=
    if vnorm (dl.2 - dl.1) < eps then vnorm (X - dl.1)
    else if uv.1 < 0 then vnorm (X - dl.1)
    else if uv.1 > 1 then vnorm (X - dl.2)
    else |uv.2|
  vnorm (dl.2 - dl.1) ^ p / (a + dist) ^ b

/-- The displacement D_i as the claim words it: uvToPoint of
pointToUV(X, destLines[i]) against sourceLines[i], minus X. -/
def spec_disp (X : Point) (dl sl : MLine) : Point :=
  compute_X_prime (compute_uv X dl.1 dl.2).1 (compute_uv X dl.1 dl.2).2 sl.1 sl.2 - X

/-- Evaluation helper: the norm of a concrete vector. -/
lemma vnorm_eq (x y r : ℝ) (hr : 0 ≤ r) (h : x ^ 2 + y ^ 2 = r ^ 2) :
    vnorm (x, y) = r := by
  rw [vnorm]; dsimp only
  rw [h, Real.sqrt_sq hr]

lemma uv_horizontal_eval : compute_uv (3, 4) (0, 0) (10, 0) = (3 / 10, 4) := by
  have h10 : vnorm ((10 : ℝ), (0 : ℝ)) = 10 := vnorm_eq _ _ _ (by norm_num) (by norm_num)
  simp [compute_uv, eps, dot, perp, Prod.mk_sub_mk, h10]
  norm_num

lemma vnorm_nonneg (v : Point) : 0 ≤ vnorm v := Real.sqrt_nonneg _

lemma vnorm_sq (v : Point) : vnorm v ^ 2 = v.1 ^ 2 + v.2 ^ 2 :=
  Real.sq_sqrt (by positivity)

private lemma round_trip_fst (x1 x2 p1 p2 q1 q2 L : ℝ) (hne : L ≠ 0)
    (hsq : L ^ 2 = (q1 - p1) ^ 2 + (q2 - p2) ^ 2) :
    p1 + (((x1 - p1) * (q1 - p1) + (x2 - p2) * (q2 - p2)) / L ^ 2) * (q1 - p1)
      + ((((x1 - p1) * (-(q2 - p2)) + (x2 - p2) * (q1 - p1)) / L) / L) * (-(q2 - p2)) = x1 := by
  rw [div_div, ← sq, div_mul_eq_mul_div, div_mul_eq_mul_div, add_assoc, div_add_div_same,
    ← eq_sub_iff_add_eq', div_eq_iff (by positivity : L ^ 2 ≠ 0)]
  linear_combination (p1 - x1) * hsq

private lemma round_trip_snd (x1 x2 p1 p2 q1 q2 L : ℝ) (hne : L ≠ 0)
    (hsq : L ^ 2 = (q1 - p1) ^ 2 + (q2 - p2) ^ 2) :
    p2 + (((x1 - p1) * (q1 - p1) + (x2 - p2) * (q2 - p2)) / L ^ 2) * (q2 - p2)
      + ((((x1 - p1) * (-(q2 - p2)) + (x2 - p2) * (q1 - p1)) / L) / L) * (q1 - p1) = x2 := by
  rw [div_div, ← sq, div_mul_eq_mul_div, div_mul_eq_mul_div, add_assoc, div_add_div_same,
    ← eq_sub_iff_add_eq', div_eq_iff (by positivity : L ^ 2 ≠ 0)]
  linear_combination (p2 - x2) * hsq

lemma eps_pos : (0 : ℝ) < eps := by norm_num [eps]

/-- Round trip: mapping a point to (u, v) coordinates of a non-degenerate
line and back against the same line returns the point, exactly. -/
lemma uv_round_trip (X P Q : Point) (h : eps ≤ vnorm (Q - P)) :
    compute_X_prime (compute_uv X P Q).1 (compute_uv X P Q).2 P Q = X := by
  obtain ⟨x1, x2⟩ := X
  obtain ⟨p1, p2⟩ := P
  obtain ⟨q1, q2⟩ := Q
  have hlt : ¬ vnorm ((q1, q2) - (p1, p2)) < eps := not_lt.mpr h
  have hne : vnorm ((q1, q2) - (p1, p2)) ≠ 0 :=
    ne_of_gt (lt_of_lt_of_le eps_pos h)
  have hsq : vnorm ((q1, q2) - (p1, p2)) ^ 2 = (q1 - p1) ^ 2 + (q2 - p2) ^ 2 := by
    rw [Prod.mk_sub_mk]; exact vnorm_sq _
  rw [compute_uv, compute_X_prime]
  simp only [hlt, if_false]
  set L := vnorm ((q1, q2) - (p1, p2)) with hL
  simp only [Prod.mk_sub_mk, dot, perp, Prod.mk_add_mk, Prod.smul_mk, smul_eq_mul,
    Prod.mk.injEq]
  constructor
  · exact round_trip_fst x1 x2 p1 p2 q1 q2 L hne hsq
  · exact round_trip_snd x1 x2 p1 p2 q1 q2 L hne hsq

lemma zip_self {α : Type} (l : List α) : l.zip l = l.map (fun x => (x, x)) := by
  induction l with
  | nil => rfl
  | cons x xs ih => simp [List.zip_cons_cons, ih]

/-- With source lines equal to destination lines and every line
non-degenerate, every displacement D_i vanishes, so the kernel is the
identity (whatever the weights are). -/
lemma kernel_identity (X : Point) (L : List MLine) (a b p : ℝ)
    (h : ∀ l ∈ L, eps ≤ vnorm (l.2 - l.1)) :
    warp_kernel_run X L L a b p = X := by
  rw [warp_kernel_run]
  have hzip : L.zip L = L.map (fun x => (x, x)) := zip_self L
  have hD : ((L.zip L).map (fun pr => (line_contribution X pr.1 pr.2 a b p).1)).sum = 0 := by
    apply List.sum_eq_zero
    intro x hx
    rw [hzip, List.map_map] at hx
    obtain ⟨l, hl, rfl⟩ := List.mem_map.mp hx
    have hrt : compute_X_prime (compute_uv X l.1 l.2).1 (compute_uv X l.1 l.2).2 l.1 l.2 = X :=
      uv_round_trip X l.1 l.2 (h l hl)
    simp only [Function.comp, line_contribution, hrt, sub_self, smul_zero]
  rw [hD, smul_zero, add_zero]
  split <;> rfl

lemma warp_pixel_empty (img : Raster) (source_lines : List MLine) (a b p : ℝ) (y x : ℕ) :
    warp_pixel img source_lines [] a b p y x = img.pix y x := by
  simp [warp_pixel]

/-- With identical non-degenerate source and destination lines, the output
pixel at an in-bounds position is exactly the input pixel there. -/
lemma warp_pixel_identity (img : Raster) (L : List MLine) (a b p : ℝ) (y x : ℕ)
    (hx : x < img.width) (hy : y < img.height)
    (hnd : ∀ l ∈ L, eps ≤ vnorm (l.2 - l.1))
    (h0 : 0 ≤ img.pix y x) (h255 : img.pix y x < 256) :
    warp_pixel img L L a b p y x = img.pix y x := by
  by_cases hL : L = []
  · subst hL; exact warp_pixel_empty img [] a b p y x
  rw [warp_pixel, if_neg hL]
  have hker : warp_kernel_run ((x : ℝ), (y : ℝ)) L L a b p = ((x : ℝ), (y : ℝ)) :=
    kernel_identity _ L a b p hnd
  have hxw : (x : ℝ) ≤ (img.width : ℝ) - 1 := by
    have : (x : ℝ) + 1 ≤ (img.width : ℝ) := by exact_mod_cast Nat.succ_le_of_lt hx
    linarith
  have hyh : (y : ℝ) ≤ (img.height : ℝ) - 1 := by
    have : (y : ℝ) + 1 ≤ (img.height : ℝ) := by exact_mod_cast Nat.succ_le_of_lt hy
    linarith
  have hclx : max 0 (min ((img.width : ℝ) - 1) ((((x : ℝ), (y : ℝ)) : Point)).1) = (x : ℝ) := by
    rw [min_eq_right hxw, max_eq_right (by positivity)]
  have hcly : max 0 (min ((img.height : ℝ) - 1) ((((x : ℝ), (y : ℝ)) : Point)).2) = (y : ℝ) := by
    rw [min_eq_right hyh, max_eq_right (by positivity)]
  simp only [hker, hclx, hcly]
  have hfx : (Int.floor ((x : ℝ))).toNat = x := by
    rw [Int.floor_natCast]; exact Int.toNat_natCast x
  have hfy : (Int.floor ((y : ℝ))).toNat = y := by
    rw [Int.floor_natCast]; exact Int.toNat_natCast y
  by_cases hinterior :
      0 ≤ (x : ℝ) ∧ (x : ℝ) < (img.width : ℝ) - 1 ∧ 0 ≤ (y : ℝ) ∧ (y : ℝ) < (img.height : ℝ) - 1
  · rw [if_pos hinterior]
    simp only [Int.floor_natCast, Int.toNat_natCast, sub_self, sub_zero, one_mul,
      mul_zero, zero_mul, mul_one, add_zero, zero_add]
    rw [quantU8, Int.floor_intCast]
    exact Int.emod_eq_of_lt h0 h255
  · rw [if_neg hinterior, hfx, hfy]

lemma line_contribution_eq (X : Point) (dl sl : MLine) (a b p : ℝ) :
    line_contribution X dl sl a b p =
      (spec_weight_amended X dl a b p • spec_disp X dl sl,
       spec_weight_amended X dl a b p) := by
  rfl

/-- Fold of a mapped zip as an indexed sum, for equal-length lists. -/
lemma zip_map_sum {α : Type} [AddCommMonoid α] (f : MLine × MLine → α) :
    ∀ (l1 l2 : List MLine), l1.length = l2.length →
      ((l1.zip l2).map f).sum =
        ∑ i ∈ Finset.range l1.length, f (l1.getD i default, l2.getD i default) := by
  intro l1
  induction l1 with
  | nil => intro l2 _; simp
  | cons x xs ih =>
    intro l2 hlen
    cases l2 with
    | nil => simp at hlen
    | cons y ys =>
      have hlen2 : xs.length = ys.length := by simpa using hlen
      simp only [List.zip_cons_cons, List.map_cons, List.sum_cons, List.length_cons]
      rw [Finset.sum_range_succ']
      simp only [List.getD_cons_succ, List.getD_cons_zero]
      rw [ih ys hlen2, add_comm]

lemma zipWith_interp_zero : ∀ (L1 L2 : List MLine), L1.length = L2.length →
    List.zipWith (interp_line 0) L1 L2 = L1 := by
  intro L1
  induction L1 with
  | nil => intro L2 _; rfl
  | cons x xs ih =>
    intro L2 hlen
    cases L2 with
    | nil => simp at hlen
    | cons y ys =>
      have hlen2 : xs.length = ys.length := by simpa using hlen
      simp only [List.zipWith_cons_cons, List.cons.injEq]
      refine ⟨?_, ih ys hlen2⟩
      simp [interp_line]

lemma zipWith_interp_one : ∀ (L1 L2 : List MLine), L1.length = L2.length →
    List.zipWith (interp_line 1) L1 L2 = L2 := by
  intro L1
  induction L1 with
  | nil => intro L2 hlen; simp [(List.length_eq_zero.mp hlen.symm)]
  | cons x xs ih =>
    intro L2 hlen
    cases L2 with
    | nil => simp at hlen
    | cons y ys =>
      have hlen2 : xs.length = ys.length := by simpa using hlen
      simp only [List.zipWith_cons_cons, List.cons.injEq]
      refine ⟨?_, ih ys hlen2⟩
      simp [interp_line]

lemma zipWith_interp_self (alpha : ℝ) : ∀ (L : List MLine),
    List.zipWith (interp_line alpha) L L = L := by
  intro L
  induction L with
  | nil => rfl
  | cons x xs ih =>
    simp only [List.zipWith_cons_cons, List.cons.injEq]
    refine ⟨?_, ih⟩
    obtain ⟨⟨a1, a2⟩, ⟨b1, b2⟩⟩ := x
    simp only [interp_line, Prod.mk.injEq]
    constructor
    · constructor <;> ring
    · constructor <;> ring

lemma zip_take_right {α β : Type} : ∀ (l1 : List α) (l2 : List β),
    l1.zip (l2.take l1.length) = l1.zip l2 := by
  intro l1
  induction l1 with
  | nil => intro l2; rfl
  | cons x xs ih =>
    intro l2
    cases l2 with
    | nil => rfl
    | cons y ys => simp [List.zip_cons_cons, ih]

lemma zipWith_take_right {α β γ : Type} (f : α → β → γ) : ∀ (l1 : List α) (l2 : List β),
    List.zipWith f l1 (l2.take l1.length) = List.zipWith f l1 l2 := by
  intro l1
  induction l1 with
  | nil => intro l2; rfl
  | cons x xs ih =>
    intro l2
    cases l2 with
    | nil => rfl
    | cons y ys => simp [List.zipWith_cons_cons, ih]

lemma map_range_getD {α : Type} [Inhabited α] : ∀ (l : List α),
    (List.range l.length).map (fun i => l.getD i default) = l := by
  intro l
  induction l with
  | nil => rfl
  | cons x xs ih =>
    rw [List.length_cons, List.range_succ_eq_map, List.map_cons, List.map_map]
    have hcomp : ((fun i => (x :: xs).getD i default) ∘ Nat.succ) =
        (fun i => xs.getD i default) := funext fun i => rfl
    rw [hcomp, ih]
    rfl

lemma normalize_weights_length (ws : List ℝ) :
    (normalize_weights ws).length = ws.length := by
  rw [normalize_weights]; split <;> simp

lemma sum_map_div (l : List ℝ) (s : ℝ) : (l.map (fun w => w / s)).sum = l.sum / s := by
  induction l with
  | nil => simp
  | cons x xs ih => simp [ih, add_div]

lemma normalize_weights_sum_pos (ws : List ℝ) (h : 0 < ws.sum) :
    (normalize_weights ws).sum = 1 := by
  rw [normalize_weights, if_pos h, sum_map_div, div_self (ne_of_gt h)]

lemma normalize_weights_sum_nonpos (ws : List ℝ) (hne : ws ≠ []) (h : ¬ 0 < ws.sum) :
    (normalize_weights ws).sum = 1 := by
  rw [normalize_weights, if_neg h, List.map_const']
  rw [List.sum_replicate, nsmul_eq_mul]
  rw [one_div, mul_inv_cancel₀]
  have hpos : 0 < ws.length := List.length_pos.mpr hne
  exact Nat.cast_ne_zero.mpr (by omega)

lemma blend_multiple_isSome (images : List Raster) (ws : List ℝ)
    (h1 : images ≠ []) (h2 : images.length = ws.length) :
    ∃ out, blend_multiple_images images ws = some out ∧
      out.width = (images.headD ⟨0, 0, fun _ _ => 0⟩).width ∧
      out.height = (images.headD ⟨0, 0, fun _ _ => 0⟩).height := by
  rw [blend_multiple_images,
    if_neg (by simpa [List.length_eq_zero] using h1),
    if_neg (by omega)]
  exact ⟨_, rfl, rfl, rfl⟩

lemma interpolate_multiple_isSome (line_sets : List (List MLine)) (ws : List ℝ)
    (h1 : line_sets ≠ []) (h2 : line_sets.length = ws.length)
    (h3 : ∀ ls ∈ line_sets, ls.length = (line_sets.headD []).length) :
    ∃ shared, interpolate_multiple_lines line_sets ws = some shared ∧
      shared.length = (line_sets.headD []).length := by
  rw [interpolate_multiple_lines]
  rw [if_neg (by simpa [List.length_eq_zero] using h1),
    if_neg (by omega)]
  have hany : (line_sets.any (fun ls =>
      ls.length ≠ (line_sets.headD []).length)) = false := by
    rw [List.any_eq_false]
    intro ls hls
    simpa using h3 ls hls
  simp only [hany, Bool.false_eq_true, if_false]
  exact ⟨_, rfl, by simp⟩

lemma warp_image_isSome (img : Raster) (source_lines dest_lines : List MLine)
    (a b p : ℝ) (h : ¬ source_lines.length < dest_lines.length) :
    warp_image_with_lines img source_lines dest_lines a b p =
      some ⟨img.width, img.height,
        fun y x => warp_pixel img source_lines dest_lines a b p y x⟩ := by
  rw [warp_image_with_lines, if_neg (by tauto)]

lemma mapM_isSome {α β : Type} (f : α → Option β) :
    ∀ l : List α, (∀ x ∈ l, (f x).isSome) →
      ∃ ys, l.mapM f = some ys ∧ ys.length = l.length := by
  intro l
  induction l with
  | nil => intro _; exact ⟨[], rfl, rfl⟩
  | cons x xs ih =>
    intro h
    obtain ⟨y, hy⟩ := Option.isSome_iff_exists.mp (h x (List.mem_cons_self x xs))
    obtain ⟨ys, hys, hlen⟩ := ih (fun z hz => h z (List.mem_cons_of_mem x hz))
    refine ⟨y :: ys, ?_, by simp [hlen]⟩
    rw [List.mapM_cons, hy, hys]
    rfl

lemma quantU8_range (r : ℝ) : 0 ≤ quantU8 r ∧ quantU8 r < 256 := by
  constructor
  · exact Int.emod_nonneg _ (by norm_num)
  · exact Int.emod_lt_of_pos _ (by norm_num)

lemma warp_pixel_range (img : Raster) (source_lines dest_lines : List MLine)
    (a b p : ℝ) (y x : ℕ)
    (hr : ∀ y x, 0 ≤ img.pix y x ∧ img.pix y x < 256) :
    0 ≤ warp_pixel img source_lines dest_lines a b p y x ∧
      warp_pixel img source_lines dest_lines a b p y x < 256 := by
  rw [warp_pixel]
  split
  · exact hr y x
  · dsimp only
    split
    · exact quantU8_range _
    · exact hr _ _

lemma quantU8_intCast (v : ℤ) (h0 : 0 ≤ v) (h255 : v < 256) :
    quantU8 (v : ℝ) = v := by
  rw [quantU8, Int.floor_intCast]
  exact Int.emod_eq_of_lt h0 h255

lemma raster_eta (r : Raster) : (⟨r.width, r.height, fun y x => r.pix y x⟩ : Raster) = r :=
  rfl

lemma normalize_weights_single (w : ℝ) (hw : 0 < w) : normalize_weights [w] = [1] := by
  rw [normalize_weights, if_pos (by simpa using hw)]
  simp [div_self (ne_of_gt hw)]

lemma interp_multiple_single (L : List MLine) :
    interpolate_multiple_lines [L] [1] = some L := by
  rw [interpolate_multiple_lines]
  rw [if_neg (by simp), if_neg (by simp)]
  have hnws : normalize_weights [1] = [1] := normalize_weights_single 1 one_pos
  simp only [hnws, List.headD_cons,
    List.zip_cons_cons, List.zip_nil_right, List.map_cons, List.map_nil,
    List.sum_cons, List.sum_nil, add_zero, one_smul]
  rw [if_neg (by simp)]
  have heta : (fun i => ((L.getD i default).1, (L.getD i default).2)) =
      (fun i => L.getD i default) := funext fun i => rfl
  rw [heta]
  exact congrArg some (map_range_getD L)

lemma blend_multiple_single (W : Raster)
    (hr : ∀ y x, 0 ≤ W.pix y x ∧ W.pix y x < 256) :
    blend_multiple_images [W] [1] = some W := by
  rw [blend_multiple_images, if_neg (by simp), if_neg (by simp)]
  have hnws : normalize_weights [1] = [1] := normalize_weights_single 1 one_pos
  simp only [hnws, List.headD_cons, List.zip_cons_cons, List.zip_nil_right,
    List.map_cons, List.map_nil, List.sum_cons, List.sum_nil, add_zero, one_mul,
    Option.some.injEq]
  have hpix : (fun y x => quantU8 ((W.pix y x : ℝ))) = W.pix := by
    funext y x
    exact quantU8_intCast _ (hr y x).1 (hr y x).2
  rw [hpix]

/-- A single raster, line set and positive weight: the merge pipeline
computes shared geometry L, warps I once against (L, L) and blends the
single warped raster with weight 1. -/
lemma merge_single (resize : Raster → ℕ → ℕ → Raster) (I : Raster) (L : List MLine)
    (w a b p : ℝ) (hw : 0 < w)
    (hr : ∀ y x, 0 ≤ I.pix y x ∧ I.pix y x < 256) :
    merge_multiple_images resize [I] [L] [w] a b p =
      some (⟨I.width, I.height, fun y x => warp_pixel I L L a b p y x⟩,
        [⟨I.width, I.height, fun y x => warp_pixel I L L a b p y x⟩], L) := by
  have hwarp : warp_image_with_lines I L L a b p =
      some ⟨I.width, I.height, fun y x => warp_pixel I L L a b p y x⟩ :=
    warp_image_isSome I L L a b p (lt_irrefl _)
  have hWr : ∀ y x,
      0 ≤ (⟨I.width, I.height, fun y x => warp_pixel I L L a b p y x⟩ : Raster).pix y x ∧
      (⟨I.width, I.height, fun y x => warp_pixel I L L a b p y x⟩ : Raster).pix y x < 256 :=
    fun y x => warp_pixel_range I L L a b p y x hr
  have hblend := blend_multiple_single _ hWr
  rw [merge_multiple_images, if_neg (by simp), if_neg (by simp)]
  simp only [normalize_weights_single w hw, List.zip_cons_cons, List.zip_nil_right,
    List.map_nil, List.map_cons, List.headD_cons]
  rw [interp_multiple_single L]
  simp only [List.mapM_cons, List.mapM_nil, hwarp, Option.bind_eq_bind,
    Option.some_bind, Option.pure_def]
  rw [hblend]

/-- For valid collections (non-empty, matching counts, equal line-set
lengths), the merge pipeline succeeds for every weight vector. -/
lemma merge_multiple_isSome (resize : Raster → ℕ → ℕ → Raster)
    (images : List Raster) (line_sets : List (List MLine)) (ws : List ℝ)
    (a b p : ℝ) (h1 : images ≠ []) (h2 : images.length = line_sets.length)
    (h3 : line_sets.length = ws.length)
    (h4 : ∀ ls ∈ line_sets, ls.length = (line_sets.headD []).length) :
    (merge_multiple_images resize images line_sets ws a b p).isSome := by
  obtain ⟨i0, irest, rfl⟩ := List.exists_cons_of_ne_nil h1
  cases line_sets with
  | nil => simp at h2
  | cons ls0 lrest =>
  rw [merge_multiple_images, if_neg (by simp), if_neg (not_not_intro ⟨h2, h3⟩)]
  simp only [List.zip_cons_cons, List.headD_cons]
  set adjF := (fun (pr : Raster × List MLine) =>
    if pr.1.width = i0.width ∧ pr.1.height = i0.height then pr
    else (resize pr.1 i0.width i0.height,
      List.map (scale_line ((i0.width : ℝ) / (pr.1.width : ℝ))
        ((i0.height : ℝ) / (pr.1.height : ℝ))) pr.2)) with hadjF
  set AD := (i0, ls0) :: List.map adjF (irest.zip lrest) with hAD
  have hlenzip : (irest.zip lrest).length = irest.length := by
    rw [List.length_zip]
    have : irest.length = lrest.length := by simpa using h2
    omega
  have hADlen : AD.length = irest.length + 1 := by
    rw [hAD]; simp [hlenzip]
  have hADsnd_len : ∀ q ∈ List.map Prod.snd AD, q.length = ls0.length := by
    intro q hq
    rw [hAD] at hq
    simp only [List.map_cons, List.map_map, List.mem_cons] at hq
    rcases hq with rfl | hq
    · rfl
    · obtain ⟨pr, hpr, rfl⟩ := List.mem_map.mp hq
      have hpr2 : pr.2 ∈ lrest := (List.of_mem_zip hpr).2
      have hlen : pr.2.length = ls0.length := by
        simpa using h4 pr.2 (List.mem_cons_of_mem _ hpr2)
      by_cases hc : pr.1.width = i0.width ∧ pr.1.height = i0.height
      · simp [hadjF, Function.comp, hc, hlen]
      · simp [hadjF, Function.comp, hc, hlen]
  have hheadD : (List.map Prod.snd AD).headD [] = ls0 := by rw [hAD]; rfl
  have hws_eq : irest.length + 1 = ws.length := by
    have := h2.trans h3; simpa using this
  obtain ⟨shared, hsh, hshlen⟩ :=
    interpolate_multiple_isSome (List.map Prod.snd AD) (normalize_weights ws)
      (by rw [hAD]; simp)
      (by rw [List.length_map, hADlen, normalize_weights_length]; exact hws_eq)
      (by rw [hheadD]; exact hADsnd_len)
  rw [hsh]
  have hshlen2 : shared.length = ls0.length := by rw [hshlen, hheadD]
  dsimp only
  obtain ⟨warped, hwd, hwdlen⟩ :=
    mapM_isSome (fun pr => warp_image_with_lines pr.1 pr.2 shared a b p) AD
      (by
        intro pr hpr
        have hlen : pr.2.length = ls0.length :=
          hADsnd_len pr.2 (List.mem_map_of_mem Prod.snd hpr)
        dsimp only
        rw [warp_image_isSome pr.1 pr.2 shared a b p (by rw [hlen, hshlen2]; exact lt_irrefl _)]
        rfl)
  rw [hwd]
  dsimp only
  obtain ⟨merged, hm, _, _⟩ :=
    blend_multiple_isSome warped (normalize_weights ws)
      (by
        apply List.ne_nil_of_length_pos
        rw [hwdlen, hADlen]; omega)
      (by rw [hwdlen, hADlen, normalize_weights_length]; exact hws_eq)
  rw [hm]
  rfl

lemma compute_uv_degenerate (X P Q : Point) (h : vnorm (Q - P) < eps) :
    compute_uv X P Q = (0, 0) := by
  simp only [compute_uv]
  rw [if_pos h]

lemma compute_X_prime_degenerate (u v : ℝ) (P Q : Point) (h : vnorm (Q - P) < eps) :
    compute_X_prime u v P Q = P := by
  simp only [compute_X_prime]
  rw [if_pos h]

lemma vnorm_zero_sub : vnorm (((0 : ℝ), (0 : ℝ)) - ((0 : ℝ), (0 : ℝ))) = 0 := by
  rw [show ((0 : ℝ), (0 : ℝ)) - ((0 : ℝ), (0 : ℝ)) = ((0 : ℝ), (0 : ℝ)) by
    rw [Prod.mk_sub_mk]; norm_num]
  exact vnorm_eq 0 0 0 (by norm_num) (by norm_num)

lemma vnorm_zero_sub_lt : vnorm (((0 : ℝ), (0 : ℝ)) - ((0 : ℝ), (0 : ℝ))) < eps := by
  rw [vnorm_zero_sub]; exact eps_pos

lemma vnorm_34_sub : vnorm (((3 : ℝ), (4 : ℝ)) - ((0 : ℝ), (0 : ℝ))) = 5 := by
  rw [show ((3 : ℝ), (4 : ℝ)) - ((0 : ℝ), (0 : ℝ)) = ((3 : ℝ), (4 : ℝ)) by
    rw [Prod.mk_sub_mk]; norm_num]
  exact vnorm_eq 3 4 5 (by norm_num) (by norm_num)

/-- Evaluation of the per-line loop body at X = (3, 4) against the
degenerate pair ((0,0), (0,0)) with a = 1, b = 1, p = 0: Python evaluates
0.0 ** 0.0 to 1.0, so the weight is 1 / (1 + 5) and the displacement pulls
X toward (0, 0). -/
lemma deg_line_contribution :
    line_contribution ((3 : ℝ), (4 : ℝ))
      (((0 : ℝ), (0 : ℝ)), ((0 : ℝ), (0 : ℝ)))
      (((0 : ℝ), (0 : ℝ)), ((0 : ℝ), (0 : ℝ))) 1 1 0 =
      ((-(1 / 2 : ℝ), -(2 / 3 : ℝ)), (1 / 6 : ℝ)) := by
  simp only [line_contribution]
  rw [compute_uv_degenerate _ _ _ vnorm_zero_sub_lt,
    compute_X_prime_degenerate _ _ _ _ vnorm_zero_sub_lt]
  rw [if_pos vnorm_zero_sub_lt, vnorm_zero_sub, vnorm_34_sub]
  rw [Real.rpow_zero, Real.rpow_one]
  rw [show ((0 : ℝ), (0 : ℝ)) - ((3 : ℝ), (4 : ℝ)) = ((-3 : ℝ), (-4 : ℝ)) by
    rw [Prod.mk_sub_mk]; norm_num]
  rw [Prod.smul_mk]
  norm_num

/-- The kernel at X = (3, 4) with the single degenerate line pair:
the computed source position is (0, 0), not X. -/
lemma kernel_deg_eval :
    warp_kernel_run ((3 : ℝ), (4 : ℝ))
      [(((0 : ℝ), (0 : ℝ)), ((0 : ℝ), (0 : ℝ)))]
      [(((0 : ℝ), (0 : ℝ)), ((0 : ℝ), (0 : ℝ)))] 1 1 0 = ((0 : ℝ), (0 : ℝ)) := by
  simp only [warp_kernel_run, List.zip_cons_cons, List.zip_nil_right, List.map_cons,
    List.map_nil, List.sum_cons, List.sum_nil, add_zero, deg_line_contribution]
  rw [if_pos (by norm_num : (0 : ℝ) < 1 / 6)]
  rw [show ((1 : ℝ) / 6)⁻¹ = 6 by norm_num]
  rw [Prod.smul_mk, Prod.mk_add_mk]
  norm_num

/-- C10: for every point X and every line (P, Q) with |Q - P| at least
eps, pointToUV followed by uvToPoint against the same line returns X
exactly; this is what makes every per-line displacement zero when a
source line coincides with its destination line. -/
theorem c10_uv_round_trip (X P Q : Point) (h : eps ≤ vnorm (Q - P)) :
    compute_X_prime (compute_uv X P Q).1 (compute_uv X P Q).2 P Q = X :=
  uv_round_trip X P Q h

theorem c10_uv_round_trip_witness :
    eps ≤ vnorm (((10 : ℝ), (0 : ℝ)) - ((0 : ℝ), (0 : ℝ))) ∧
      compute_X_prime (compute_uv (3, 4) (0, 0) (10, 0)).1
        (compute_uv (3, 4) (0, 0) (10, 0)).2 (0, 0) (10, 0) = (3, 4) := by
  have hv : vnorm (((10 : ℝ), (0 : ℝ)) - ((0 : ℝ), (0 : ℝ))) = 10 := by
    rw [show ((10 : ℝ), (0 : ℝ)) - ((0 : ℝ), (0 : ℝ)) = ((10 : ℝ), (0 : ℝ)) by
      rw [Prod.mk_sub_mk]; norm_num]
    exact vnorm_eq 10 0 10 (by norm_num) (by norm_num)
  have h : eps ≤ vnorm (((10 : ℝ), (0 : ℝ)) - ((0 : ℝ), (0 : ℝ))) := by
    rw [hv]; norm_num [eps]
  exact ⟨h, c10_uv_round_trip (3, 4) (0, 0) (10, 0) h⟩

/-- C5: a degenerate line (|Q - P| below eps) makes pointToUV return
(0, 0) and uvToPoint return the first endpoint unchanged, for every input;
and on the non-degenerate branch the only divisors, |Q - P| and its
square, are non-zero, so neither function divides by zero. -/
theorem c5_degenerate_fallback (X P Q : Point) (u v : ℝ) :
    (vnorm (Q - P) < eps → compute_uv X P Q = (0, 0)) ∧
    (vnorm (Q - P) < eps → compute_X_prime u v P Q = P) ∧
    (eps ≤ vnorm (Q - P) → vnorm (Q - P) ≠ 0 ∧ vnorm (Q - P) ^ 2 ≠ 0) := by
  refine ⟨fun h => ?_, fun h => ?_, fun h => ?_⟩
  · rw [compute_uv, if_pos h]
  · rw [compute_X_prime, if_pos h]
  · have hne : vnorm (Q - P) ≠ 0 := ne_of_gt (lt_of_lt_of_le eps_pos h)
    exact ⟨hne, pow_ne_zero 2 hne⟩

theorem c5_degenerate_fallback_witness :
    compute_uv (3, 4) (7, 7) (7, 7) = (0, 0) ∧
    compute_X_prime 2 3 (7, 7) (7, 7) = (7, 7) ∧
    vnorm (((10 : ℝ), (0 : ℝ)) - ((0 : ℝ), (0 : ℝ))) ≠ 0 := by
  have hv0 : vnorm (((7 : ℝ), (7 : ℝ)) - ((7 : ℝ), (7 : ℝ))) = 0 := by
    rw [show ((7 : ℝ), (7 : ℝ)) - ((7 : ℝ), (7 : ℝ)) = ((0 : ℝ), (0 : ℝ)) by
      rw [Prod.mk_sub_mk]; norm_num]
    exact vnorm_eq 0 0 0 (by norm_num) (by norm_num)
  have hlt : vnorm (((7 : ℝ), (7 : ℝ)) - ((7 : ℝ), (7 : ℝ))) < eps := by
    rw [hv0]; exact eps_pos
  have hv10 : vnorm (((10 : ℝ), (0 : ℝ)) - ((0 : ℝ), (0 : ℝ))) = 10 := by
    rw [show ((10 : ℝ), (0 : ℝ)) - ((0 : ℝ), (0 : ℝ)) = ((10 : ℝ), (0 : ℝ)) by
      rw [Prod.mk_sub_mk]; norm_num]
    exact vnorm_eq 10 0 10 (by norm_num) (by norm_num)
  have hge : eps ≤ vnorm (((10 : ℝ), (0 : ℝ)) - ((0 : ℝ), (0 : ℝ))) := by
    rw [hv10]; norm_num [eps]
  exact ⟨(c5_degenerate_fallback (3, 4) (7, 7) (7, 7) 0 0).1 hlt,
    (c5_degenerate_fallback (3, 4) (7, 7) (7, 7) 2 3).2.1 hlt,
    ((c5_degenerate_fallback (3, 4) (0, 0) (10, 0) 0 0).2.2 hge).1⟩

/-- C3: warping with an empty destination LineSet copies every pixel of
the input raster unchanged (the per-pixel loop short-circuits before any
kernel work), and no error is raised: the result is exactly the input. -/
theorem c3_empty_lineset_identity (img : Raster) (source_lines : List MLine) (a b p : ℝ) :
    warp_image_with_lines img source_lines [] a b p = some img := by
  cases img with
  | mk w h pix =>
    rw [warp_image_with_lines, if_neg (by simp)]
    refine congrArg some ?_
    have hpix : (fun y x => warp_pixel ⟨w, h, pix⟩ source_lines [] a b p y x) = pix := by
      funext y x
      exact warp_pixel_empty ⟨w, h, pix⟩ source_lines a b p y x
    rw [hpix]

/-- C6: pairwise line interpolation at alpha = 0 reproduces the first
LineSet and at alpha = 1 the second, exactly componentwise, for
equal-length LineSets; and interpolating a LineSet with itself is the
identity for every alpha. -/
theorem c6_interpolate_endpoints (L1 L2 L : List MLine) (alpha : ℝ)
    (hlen : L1.length = L2.length) :
    interpolate_lines L1 L2 0 = some L1 ∧ interpolate_lines L1 L2 1 = some L2 ∧
    interpolate_lines L L alpha = some L := by
  refine ⟨?_, ?_, ?_⟩
  · rw [interpolate_lines, if_neg (by omega)]
    exact congrArg some (zipWith_interp_zero L1 L2 hlen)
  · rw [interpolate_lines, if_neg (by omega)]
    exact congrArg some (zipWith_interp_one L1 L2 hlen)
  · rw [interpolate_lines, if_neg (by omega)]
    exact congrArg some (zipWith_interp_self alpha L)

theorem c6_interpolate_endpoints_witness :
    interpolate_lines [(((0 : ℝ), (0 : ℝ)), ((1 : ℝ), (2 : ℝ)))]
        [(((4 : ℝ), (4 : ℝ)), ((5 : ℝ), (6 : ℝ)))] 0 =
      some [(((0 : ℝ), (0 : ℝ)), ((1 : ℝ), (2 : ℝ)))] ∧
    interpolate_lines [(((0 : ℝ), (0 : ℝ)), ((1 : ℝ), (2 : ℝ)))]
        [(((4 : ℝ), (4 : ℝ)), ((5 : ℝ), (6 : ℝ)))] 1 =
      some [(((4 : ℝ), (4 : ℝ)), ((5 : ℝ), (6 : ℝ)))] ∧
    interpolate_lines [(((9 : ℝ), (8 : ℝ)), ((7 : ℝ), (6 : ℝ)))]
        [(((9 : ℝ), (8 : ℝ)), ((7 : ℝ), (6 : ℝ)))] (1 / 3) =
      some [(((9 : ℝ), (8 : ℝ)), ((7 : ℝ), (6 : ℝ)))] := by
  refine ⟨?_, ?_, ?_⟩
  · exact (c6_interpolate_endpoints [(((0 : ℝ), (0 : ℝ)), ((1 : ℝ), (2 : ℝ)))]
      [(((4 : ℝ), (4 : ℝ)), ((5 : ℝ), (6 : ℝ)))] [(((9 : ℝ), (8 : ℝ)), ((7 : ℝ), (6 : ℝ)))]
      (1 / 3) rfl).1
  · exact (c6_interpolate_endpoints [(((0 : ℝ), (0 : ℝ)), ((1 : ℝ), (2 : ℝ)))]
      [(((4 : ℝ), (4 : ℝ)), ((5 : ℝ), (6 : ℝ)))] [(((9 : ℝ), (8 : ℝ)), ((7 : ℝ), (6 : ℝ)))]
      (1 / 3) rfl).2.1
  · exact (c6_interpolate_endpoints [(((0 : ℝ), (0 : ℝ)), ((1 : ℝ), (2 : ℝ)))]
      [(((4 : ℝ), (4 : ℝ)), ((5 : ℝ), (6 : ℝ)))] _ _ rfl).2.2

/-- C2 counterexample: the claim quantifies over every non-empty LineSet,
but with the degenerate line ((0,0),(0,0)) used as both source and
destination (a = 1, b = 1, p = 0) the kernel maps pixel (3, 4) to (0, 0),
not to itself, because the degenerate source line contributes the non-zero
displacement P - X with weight 0 ** 0 / (1 + |X - P|) = 1/6 > 0. -/
theorem c2_identity_warp_cx :
    warp_kernel_run ((3 : ℝ), (4 : ℝ))
      [(((0 : ℝ), (0 : ℝ)), ((0 : ℝ), (0 : ℝ)))]
      [(((0 : ℝ), (0 : ℝ)), ((0 : ℝ), (0 : ℝ)))] 1 1 0 ≠ ((3 : ℝ), (4 : ℝ)) := by
  rw [kernel_deg_eval]
  intro h
  exact absurd (congrArg Prod.fst h) (by norm_num)

/-- C2 amended: warp(I, L, L, params) reproduces I exactly at every pixel
for every non-empty LineSet L all of whose lines are non-degenerate
(|Q - P| at least eps) and every uint8 raster; in particular every
destination position is mapped to itself by the kernel, in exact
arithmetic, for all parameters. -/
theorem c2_identity_warp_amended (img : Raster) (L : List MLine) (a b p : ℝ)
    (hL : L ≠ []) (hnd : ∀ l ∈ L, eps ≤ vnorm (l.2 - l.1))
    (hrange : ∀ y x, 0 ≤ img.pix y x ∧ img.pix y x < 256) :
    (∀ X : Point, warp_kernel_run X L L a b p = X) ∧
    warp_image_with_lines img L L a b p = some ⟨img.width, img.height,
      fun y x => warp_pixel img L L a b p y x⟩ ∧
    ∀ y x, y < img.height → x < img.width →
      warp_pixel img L L a b p y x = img.pix y x :=
  ⟨fun X => kernel_identity X L a b p hnd,
    warp_image_isSome img L L a b p (lt_irrefl _),
    fun y x hy hx =>
      warp_pixel_identity img L a b p y x hx hy hnd (hrange y x).1 (hrange y x).2⟩

theorem c2_identity_warp_amended_witness :
    warp_kernel_run ((7 : ℝ), (9 : ℝ)) [(((0 : ℝ), (0 : ℝ)), ((10 : ℝ), (0 : ℝ)))]
      [(((0 : ℝ), (0 : ℝ)), ((10 : ℝ), (0 : ℝ)))] (1 / 100) 2 0 = ((7 : ℝ), (9 : ℝ)) := by
  have hnd : ∀ l ∈ [(((0 : ℝ), (0 : ℝ)), ((10 : ℝ), (0 : ℝ)))], eps ≤ vnorm (l.2 - l.1) := by
    intro l hl
    rw [List.mem_singleton] at hl
    subst hl
    rw [show ((((0 : ℝ), (0 : ℝ)), ((10 : ℝ), (0 : ℝ))) : MLine).2 -
        ((((0 : ℝ), (0 : ℝ)), ((10 : ℝ), (0 : ℝ))) : MLine).1 = ((10 : ℝ), (0 : ℝ)) by
      rw [Prod.mk_sub_mk]; norm_num]
    rw [vnorm_eq 10 0 10 (by norm_num) (by norm_num)]
    norm_num [eps]
  exact (c2_identity_warp_amended ⟨1, 1, fun _ _ => 5⟩ _ (1 / 100) 2 0 (by simp) hnd
    (fun y x => by norm_num)).1 ((7 : ℝ), (9 : ℝ))

private lemma lerp_point_eq (P Q : Point) (t : ℝ) :
    ((P.1 * (1 - t) + Q.1 * t, P.2 * (1 - t) + Q.2 * t) : Point) =
      (1 - t) • P + t • Q := by
  apply Prod.ext
  · simp only [Prod.fst_add, Prod.smul_fst, smul_eq_mul]; ring
  · simp only [Prod.snd_add, Prod.smul_snd, smul_eq_mul]; ring

/-- C9 counterexample: the claim quantifies over every non-empty LineSet;
with the degenerate line ((0,0),(0,0)) as both source and destination
(a = 1, b = 1, p = 0, samplesPerLine = 1) the grid line from (3,4) to
(3,4) is warped to the polyline [(0,0), (0,0)], not to its unwarped
samples [(3,4), (3,4)]. -/
theorem c9_grid_identity_cx :
    warp_grid_points [(((3 : ℝ), (4 : ℝ)), ((3 : ℝ), (4 : ℝ)))]
      [(((0 : ℝ), (0 : ℝ)), ((0 : ℝ), (0 : ℝ)))]
      [(((0 : ℝ), (0 : ℝ)), ((0 : ℝ), (0 : ℝ)))] 1 1 0 1 =
      some [[((0 : ℝ), (0 : ℝ)), ((0 : ℝ), (0 : ℝ))]] ∧
    (((0 : ℝ), (0 : ℝ)) : Point) ≠ ((3 : ℝ), (4 : ℝ)) := by
  constructor
  · rw [warp_grid_points, if_neg ?hcond]
    case hcond =>
      intro h
      rcases h.2 with h0 | ⟨_, hlt⟩
      · exact absurd h0 (by norm_num)
      · exact absurd hlt (lt_irrefl _)
    refine congrArg some ?_
    simp only [List.map_cons, List.map_nil, List.range_succ, List.range_zero,
      List.nil_append, List.cons_append]
    rw [if_neg (List.cons_ne_nil _ _)]
    norm_num
    have h := kernel_deg_eval
    norm_num at h
    exact h
  · intro h
    exact absurd (congrArg Prod.fst h) (by norm_num)

/-- C9 amended: for every grid-line set and every non-empty LineSet L all
of whose lines are non-degenerate, used as both source and destination
lines, with samplesPerLine at least 1, warpGrid returns one polyline per
grid line consisting of the samplesPerLine + 1 unwarped evenly spaced
linear samples of that grid line, exactly. -/
theorem c9_grid_identity_amended (grid_lines L : List MLine) (a b p : ℝ) (n : ℕ)
    (hn : 1 ≤ n) (hL : L ≠ []) (hnd : ∀ l ∈ L, eps ≤ vnorm (l.2 - l.1)) :
    warp_grid_points grid_lines L L a b p n =
      some (grid_lines.map (fun gl =>
        (List.range (n + 1)).map (fun (i : ℕ) =>
          ((1 - (i : ℝ) / (n : ℝ)) • gl.1 + ((i : ℝ) / (n : ℝ)) • gl.2 : Point)))) := by
  rw [warp_grid_points, if_neg ?hcond]
  case hcond =>
    intro h
    rcases h.2 with h0 | ⟨_, hlt⟩
    · omega
    · exact absurd hlt (lt_irrefl _)
  refine congrArg some ?_
  apply List.map_congr_left
  intro gl _
  apply List.map_congr_left
  intro i _
  rw [if_neg hL, kernel_identity _ L a b p hnd]
  exact lerp_point_eq gl.1 gl.2 ((i : ℝ) / (n : ℝ))

theorem c9_grid_identity_amended_witness :
    warp_grid_points [(((0 : ℝ), (0 : ℝ)), ((2 : ℝ), (2 : ℝ)))]
      [(((0 : ℝ), (0 : ℝ)), ((10 : ℝ), (0 : ℝ)))]
      [(((0 : ℝ), (0 : ℝ)), ((10 : ℝ), (0 : ℝ)))] 1 1 0 1 =
      some ([(((0 : ℝ), (0 : ℝ)), ((2 : ℝ), (2 : ℝ)))].map (fun gl =>
        (List.range (1 + 1)).map (fun (i : ℕ) =>
          ((1 - (i : ℝ) / ((1 : ℕ) : ℝ)) • gl.1 + ((i : ℝ) / ((1 : ℕ) : ℝ)) • gl.2 : Point)))) := by
  have hnd : ∀ l ∈ [(((0 : ℝ), (0 : ℝ)), ((10 : ℝ), (0 : ℝ)))], eps ≤ vnorm (l.2 - l.1) := by
    intro l hl
    rw [List.mem_singleton] at hl
    subst hl
    rw [show ((((0 : ℝ), (0 : ℝ)), ((10 : ℝ), (0 : ℝ))) : MLine).2 -
        ((((0 : ℝ), (0 : ℝ)), ((10 : ℝ), (0 : ℝ))) : MLine).1 = ((10 : ℝ), (0 : ℝ)) by
      rw [Prod.mk_sub_mk]; norm_num]
    rw [vnorm_eq 10 0 10 (by norm_num) (by norm_num)]
    norm_num [eps]
  exact c9_grid_identity_amended [(((0 : ℝ), (0 : ℝ)), ((2 : ℝ), (2 : ℝ)))]
    [(((0 : ℝ), (0 : ℝ)), ((10 : ℝ), (0 : ℝ)))] 1 1 0 1 le_rfl (by simp) hnd

lemma vnorm_self_sub (P : Point) : vnorm (P - P) = 0 := by
  rw [sub_self, vnorm]
  norm_num

lemma vnorm_self_sub_lt (P : Point) : vnorm (P - P) < eps := by
  rw [vnorm_self_sub]; exact eps_pos

lemma vnorm_10_sub : vnorm (((10 : ℝ), (0 : ℝ)) - ((0 : ℝ), (0 : ℝ))) = 10 := by
  rw [show ((10 : ℝ), (0 : ℝ)) - ((0 : ℝ), (0 : ℝ)) = ((10 : ℝ), (0 : ℝ)) by
    rw [Prod.mk_sub_mk]; norm_num]
  exact vnorm_eq 10 0 10 (by norm_num) (by norm_num)

lemma vnorm_10_sub_ge : eps ≤ vnorm (((10 : ℝ), (0 : ℝ)) - ((0 : ℝ), (0 : ℝ))) := by
  rw [vnorm_10_sub]; norm_num [eps]

/-- Loop body at X = (3,4), destination line degenerate at the origin,
source line degenerate at (100, 100), a = 1, b = 1, p = 0. -/
lemma contrib_deg_far :
    line_contribution ((3 : ℝ), (4 : ℝ))
      (((0 : ℝ), (0 : ℝ)), ((0 : ℝ), (0 : ℝ)))
      (((100 : ℝ), (100 : ℝ)), ((100 : ℝ), (100 : ℝ))) 1 1 0 =
      ((((97 : ℝ) / 6), (16 : ℝ)), ((1 : ℝ) / 6)) := by
  simp only [line_contribution]
  rw [compute_uv_degenerate _ _ _ vnorm_zero_sub_lt,
    compute_X_prime_degenerate _ _ _ _ (vnorm_self_sub_lt ((100 : ℝ), (100 : ℝ)))]
  rw [if_pos vnorm_zero_sub_lt, vnorm_zero_sub, vnorm_34_sub]
  rw [Real.rpow_zero, Real.rpow_one]
  rw [show ((100 : ℝ), (100 : ℝ)) - ((3 : ℝ), (4 : ℝ)) = ((97 : ℝ), (96 : ℝ)) by
    rw [Prod.mk_sub_mk]; norm_num]
  rw [Prod.smul_mk]
  norm_num

/-- Loop body at X = (3,4) with the same non-degenerate horizontal line as
destination and source: displacement zero, dist = |v| = 4, weight 1/5. -/
lemma contrib_h_h :
    line_contribution ((3 : ℝ), (4 : ℝ))
      (((0 : ℝ), (0 : ℝ)), ((10 : ℝ), (0 : ℝ)))
      (((0 : ℝ), (0 : ℝ)), ((10 : ℝ), (0 : ℝ))) 1 1 0 =
      (((0 : ℝ), (0 : ℝ)), ((1 : ℝ) / 5)) := by
  simp only [line_contribution]
  rw [uv_round_trip ((3 : ℝ), (4 : ℝ)) ((0 : ℝ), (0 : ℝ)) ((10 : ℝ), (0 : ℝ)) vnorm_10_sub_ge]
  rw [sub_self, smul_zero, uv_horizontal_eval]
  rw [if_neg (by rw [vnorm_10_sub]; norm_num [eps])]
  rw [if_neg (by norm_num), if_neg (by norm_num)]
  rw [vnorm_10_sub, Real.rpow_zero, Real.rpow_one]
  norm_num

/-- Kernel output at the C1 counterexample input: the degenerate
destination line is weighted by 1/6, not by the 1 the spec formula gives. -/
lemma c1_kernel_eval :
    warp_kernel_run ((3 : ℝ), (4 : ℝ))
      [(((100 : ℝ), (100 : ℝ)), ((100 : ℝ), (100 : ℝ))),
        (((0 : ℝ), (0 : ℝ)), ((10 : ℝ), (0 : ℝ)))]
      [(((0 : ℝ), (0 : ℝ)), ((0 : ℝ), (0 : ℝ))),
        (((0 : ℝ), (0 : ℝ)), ((10 : ℝ), (0 : ℝ)))] 1 1 0 =
      (((518 : ℝ) / 11), ((524 : ℝ) / 11)) := by
  simp only [warp_kernel_run, List.zip_cons_cons, List.zip_nil_right, List.map_cons,
    List.map_nil, List.sum_cons, List.sum_nil, contrib_deg_far, contrib_h_h, add_zero]
  rw [if_pos (by norm_num : (0 : ℝ) < 1 / 6 + 1 / 5)]
  rw [Prod.mk_add_mk, Prod.smul_mk, Prod.mk_add_mk]
  norm_num

lemma spec_weight_deg :
    spec_weight ((3 : ℝ), (4 : ℝ)) (((0 : ℝ), (0 : ℝ)), ((0 : ℝ), (0 : ℝ))) 1 1 0 = 1 := by
  simp only [spec_weight]
  rw [compute_uv_degenerate _ _ _ vnorm_zero_sub_lt]
  rw [if_neg (by norm_num), if_neg (by norm_num)]
  rw [vnorm_zero_sub, Real.rpow_zero]
  norm_num [Real.rpow_one]

lemma spec_weight_h :
    spec_weight ((3 : ℝ), (4 : ℝ)) (((0 : ℝ), (0 : ℝ)), ((10 : ℝ), (0 : ℝ))) 1 1 0 =
      (1 : ℝ) / 5 := by
  simp only [spec_weight]
  rw [uv_horizontal_eval]
  rw [if_neg (by norm_num), if_neg (by norm_num)]
  rw [vnorm_10_sub, Real.rpow_zero, Real.rpow_one]
  norm_num

lemma spec_disp_deg_far :
    spec_disp ((3 : ℝ), (4 : ℝ)) (((0 : ℝ), (0 : ℝ)), ((0 : ℝ), (0 : ℝ)))
      (((100 : ℝ), (100 : ℝ)), ((100 : ℝ), (100 : ℝ))) = ((97 : ℝ), (96 : ℝ)) := by
  simp only [spec_disp]
  rw [compute_X_prime_degenerate _ _ _ _ (vnorm_self_sub_lt ((100 : ℝ), (100 : ℝ)))]
  rw [Prod.mk_sub_mk]
  norm_num

lemma spec_disp_h_h :
    spec_disp ((3 : ℝ), (4 : ℝ)) (((0 : ℝ), (0 : ℝ)), ((10 : ℝ), (0 : ℝ)))
      (((0 : ℝ), (0 : ℝ)), ((10 : ℝ), (0 : ℝ))) = 0 := by
  simp only [spec_disp]
  rw [uv_round_trip ((3 : ℝ), (4 : ℝ)) ((0 : ℝ), (0 : ℝ)) ((10 : ℝ), (0 : ℝ)) vnorm_10_sub_ge]
  exact sub_self _

/-- C1 counterexample: at X = (3,4) with destination lines [degenerate at
origin, horizontal line] and source lines [degenerate at (100,100), the
same horizontal line] (a = 1, b = 1, p = 0), the kernel returns
(518/11, 524/11), while the formula of the claim, whose dist is chosen by
the u-trichotomy alone, prescribes (503/6, 84): for the degenerate
destination line the code uses dist = |X - P| = 5 where the claim
prescribes dist = |v| = 0. -/
theorem c1_kernel_formula_cx :
    warp_kernel ((3 : ℝ), (4 : ℝ))
        [(((100 : ℝ), (100 : ℝ)), ((100 : ℝ), (100 : ℝ))),
          (((0 : ℝ), (0 : ℝ)), ((10 : ℝ), (0 : ℝ)))]
        [(((0 : ℝ), (0 : ℝ)), ((0 : ℝ), (0 : ℝ))),
          (((0 : ℝ), (0 : ℝ)), ((10 : ℝ), (0 : ℝ)))] 1 1 0 =
      some (((518 : ℝ) / 11), ((524 : ℝ) / 11)) ∧
    ((3 : ℝ), (4 : ℝ)) +
      (∑ i ∈ Finset.range 2, spec_weight ((3 : ℝ), (4 : ℝ))
          (([(((0 : ℝ), (0 : ℝ)), ((0 : ℝ), (0 : ℝ))),
            (((0 : ℝ), (0 : ℝ)), ((10 : ℝ), (0 : ℝ)))].getD i default)) 1 1 0)⁻¹ •
      (∑ i ∈ Finset.range 2, spec_weight ((3 : ℝ), (4 : ℝ))
          (([(((0 : ℝ), (0 : ℝ)), ((0 : ℝ), (0 : ℝ))),
            (((0 : ℝ), (0 : ℝ)), ((10 : ℝ), (0 : ℝ)))].getD i default)) 1 1 0 •
        spec_disp ((3 : ℝ), (4 : ℝ))
          ([(((0 : ℝ), (0 : ℝ)), ((0 : ℝ), (0 : ℝ))),
            (((0 : ℝ), (0 : ℝ)), ((10 : ℝ), (0 : ℝ)))].getD i default)
          ([(((100 : ℝ), (100 : ℝ)), ((100 : ℝ), (100 : ℝ))),
            (((0 : ℝ), (0 : ℝ)), ((10 : ℝ), (0 : ℝ)))].getD i default)) =
      (((503 : ℝ) / 6), (84 : ℝ)) ∧
    ((((518 : ℝ) / 11), ((524 : ℝ) / 11)) : Point) ≠ (((503 : ℝ) / 6), (84 : ℝ)) := by
  refine ⟨?_, ?_, ?_⟩
  · rw [warp_kernel, if_neg (by simp)]
    exact congrArg some c1_kernel_eval
  · rw [Finset.sum_range_succ, Finset.sum_range_succ, Finset.sum_range_zero,
      Finset.sum_range_succ, Finset.sum_range_succ, Finset.sum_range_zero]
    simp only [List.getD_cons_zero, List.getD_cons_succ]
    rw [spec_weight_deg, spec_weight_h, spec_disp_deg_far, spec_disp_h_h]
    rw [one_smul, smul_zero, zero_add, add_zero]
    rw [Prod.smul_mk, Prod.mk_add_mk]
    norm_num
  · intro h
    have h1 := congrArg Prod.fst h
    norm_num at h1

/-- C1 amended: the kernel computes sourcePos = X + (sum of weight_i D_i) /
(sum of weight_i) with D_i = uvToPoint(pointToUV(X, destLines[i]),
sourceLines[i]) - X and weight_i = len(destLines[i])^p / (a + dist)^b,
where dist is |X - P| when destLines[i] is degenerate (length below eps),
and otherwise |X - P| if u < 0, |X - Q| if u > 1, |v| else; when the
weight sum is not positive the kernel returns X. -/
theorem c1_kernel_formula_amended (X : Point) (source_lines dest_lines : List MLine)
    (a b p : ℝ) (hne : dest_lines ≠ [])
    (hlen : dest_lines.length = source_lines.length) :
    warp_kernel X source_lines dest_lines a b p =
      some (if 0 < ∑ i ∈ Finset.range dest_lines.length,
            spec_weight_amended X (dest_lines.getD i default) a b p
        then X + (∑ i ∈ Finset.range dest_lines.length,
            spec_weight_amended X (dest_lines.getD i default) a b p)⁻¹ •
          ∑ i ∈ Finset.range dest_lines.length,
            spec_weight_amended X (dest_lines.getD i default) a b p •
              spec_disp X (dest_lines.getD i default) (source_lines.getD i default)
        else X) := by
  rw [warp_kernel, if_neg (by omega)]
  refine congrArg some ?_
  rw [warp_kernel_run]
  rw [zip_map_sum (fun pr => (line_contribution X pr.1 pr.2 a b p).2)
      dest_lines source_lines hlen,
    zip_map_sum (fun pr => (line_contribution X pr.1 pr.2 a b p).1)
      dest_lines source_lines hlen]
  simp only [line_contribution_eq]

theorem c1_kernel_formula_amended_witness :
    warp_kernel ((3 : ℝ), (4 : ℝ)) [(((0 : ℝ), (0 : ℝ)), ((10 : ℝ), (0 : ℝ)))]
        [(((0 : ℝ), (0 : ℝ)), ((10 : ℝ), (0 : ℝ)))] 1 1 0 =
      some (if 0 < ∑ i ∈ Finset.range
            ([(((0 : ℝ), (0 : ℝ)), ((10 : ℝ), (0 : ℝ)))] : List MLine).length,
            spec_weight_amended ((3 : ℝ), (4 : ℝ))
              ([(((0 : ℝ), (0 : ℝ)), ((10 : ℝ), (0 : ℝ)))].getD i default) 1 1 0
        then ((3 : ℝ), (4 : ℝ)) + (∑ i ∈ Finset.range
            ([(((0 : ℝ), (0 : ℝ)), ((10 : ℝ), (0 : ℝ)))] : List MLine).length,
            spec_weight_amended ((3 : ℝ), (4 : ℝ))
              ([(((0 : ℝ), (0 : ℝ)), ((10 : ℝ), (0 : ℝ)))].getD i default) 1 1 0)⁻¹ •
          ∑ i ∈ Finset.range
            ([(((0 : ℝ), (0 : ℝ)), ((10 : ℝ), (0 : ℝ)))] : List MLine).length,
            spec_weight_amended ((3 : ℝ), (4 : ℝ))
              ([(((0 : ℝ), (0 : ℝ)), ((10 : ℝ), (0 : ℝ)))].getD i default) 1 1 0 •
              spec_disp ((3 : ℝ), (4 : ℝ))
                ([(((0 : ℝ), (0 : ℝ)), ((10 : ℝ), (0 : ℝ)))].getD i default)
                ([(((0 : ℝ), (0 : ℝ)), ((10 : ℝ), (0 : ℝ)))].getD i default)
        else ((3 : ℝ), (4 : ℝ))) :=
  c1_kernel_formula_amended ((3 : ℝ), (4 : ℝ)) _ _ 1 1 0 (by simp) rfl

/-- C4 counterexample: pairwise interpolate, given a first LineSet of
length 1 and a second of length 2, returns successfully and silently drops
the extra line of the second set instead of surfacing a failure. -/
theorem c4_silent_truncation_cx :
    interpolate_lines [(((0 : ℝ), (0 : ℝ)), ((1 : ℝ), (0 : ℝ)))]
        [(((0 : ℝ), (0 : ℝ)), ((1 : ℝ), (0 : ℝ))),
          (((5 : ℝ), (5 : ℝ)), ((6 : ℝ), (5 : ℝ)))] (1 / 2) =
      some [(((0 : ℝ), (0 : ℝ)), ((1 : ℝ), (0 : ℝ)))] ∧
    ([(((0 : ℝ), (0 : ℝ)), ((1 : ℝ), (0 : ℝ)))] : List MLine).length ≠
      ([(((0 : ℝ), (0 : ℝ)), ((1 : ℝ), (0 : ℝ))),
        (((5 : ℝ), (5 : ℝ)), ((6 : ℝ), (5 : ℝ)))] : List MLine).length := by
  constructor
  · rw [interpolate_lines, if_neg (by simp)]
    refine congrArg some ?_
    rw [List.zipWith_cons_cons, List.zipWith_nil_left]
    simp only [interp_line, List.cons.injEq, Prod.mk.injEq, and_true]
    norm_num
  · simp

/-- C4 amended: the N-way operations (blendMany, interpolateMany,
mergeMultiple) do report empty collections and mismatched counts (and
mismatched line-set lengths) as failures; but the pairwise operations do
not validate: interpolate fails only when the second LineSet is shorter
(IndexError) and silently truncates a longer second LineSet, and the warp
kernel silently ignores extra source lines beyond the destination count. -/
theorem c4_error_contract_amended :
    (∀ (images : List Raster) (ws : List ℝ),
      images = [] ∨ images.length ≠ ws.length →
        blend_multiple_images images ws = none) ∧
    (∀ (line_sets : List (List MLine)) (ws : List ℝ),
      line_sets = [] ∨ line_sets.length ≠ ws.length →
        interpolate_multiple_lines line_sets ws = none) ∧
    (∀ (line_sets : List (List MLine)) (ws : List ℝ),
      (∃ ls ∈ line_sets, ls.length ≠ (line_sets.headD []).length) →
        interpolate_multiple_lines line_sets ws = none) ∧
    (∀ (resize : Raster → ℕ → ℕ → Raster) (images : List Raster)
        (line_sets : List (List MLine)) (ws : List ℝ) (a b p : ℝ),
      images = [] ∨ ¬(images.length = line_sets.length ∧ line_sets.length = ws.length) →
        merge_multiple_images resize images line_sets ws a b p = none) ∧
    (∀ (L1 L2 : List MLine) (alpha : ℝ),
      L2.length < L1.length → interpolate_lines L1 L2 alpha = none) ∧
    (∀ (L1 L2 : List MLine) (alpha : ℝ),
      interpolate_lines L1 L2 alpha = interpolate_lines L1 (L2.take L1.length) alpha) ∧
    (∀ (X : Point) (src dest : List MLine) (a b p : ℝ),
      warp_kernel X src dest a b p = warp_kernel X (src.take dest.length) dest a b p) := by
  refine ⟨?_, ?_, ?_, ?_, ?_, ?_, ?_⟩
  · intro images ws h
    rw [blend_multiple_images]
    rcases h with rfl | hne
    · rw [if_pos List.length_nil]
    · by_cases h0 : images.length = 0
      · rw [if_pos h0]
      · rw [if_neg h0, if_pos hne]
  · intro line_sets ws h
    rw [interpolate_multiple_lines]
    rcases h with rfl | hne
    · rw [if_pos List.length_nil]
    · by_cases h0 : line_sets.length = 0
      · rw [if_pos h0]
      · rw [if_neg h0, if_pos hne]
  · intro line_sets ws h
    obtain ⟨ls, hls, hlen⟩ := h
    rw [interpolate_multiple_lines]
    by_cases h0 : line_sets.length = 0
    · rw [if_pos h0]
    · rw [if_neg h0]
      by_cases h1 : line_sets.length ≠ ws.length
      · rw [if_pos h1]
      · rw [if_neg h1, if_pos (by rw [List.any_eq_true]; exact ⟨ls, hls, by simpa using hlen⟩)]
  · intro resize images line_sets ws a b p h
    rw [merge_multiple_images]
    rcases h with rfl | hne
    · rw [if_pos List.length_nil]
    · by_cases h0 : images.length = 0
      · rw [if_pos h0]
      · rw [if_neg h0, if_pos hne]
  · intro L1 L2 alpha h
    rw [interpolate_lines, if_pos h]
  · intro L1 L2 alpha
    have hc : (L2.take L1.length).length < L1.length ↔ L2.length < L1.length := by
      rw [List.length_take]; omega
    rw [interpolate_lines, interpolate_lines, zipWith_take_right]
    exact if_congr hc.symm rfl rfl
  · intro X src dest a b p
    have hc : (src.take dest.length).length < dest.length ↔ src.length < dest.length := by
      rw [List.length_take]; omega
    rw [warp_kernel, warp_kernel, warp_kernel_run, warp_kernel_run, zip_take_right]
    exact if_congr hc.symm rfl rfl

theorem c4_error_contract_amended_witness :
    blend_multiple_images [] [] = none ∧
    interpolate_multiple_lines [] [(1 : ℝ)] = none ∧
    interpolate_multiple_lines [[(((0 : ℝ), (0 : ℝ)), ((1 : ℝ), (0 : ℝ)))], []]
      [(1 : ℝ), (1 : ℝ)] = none ∧
    merge_multiple_images (fun r _ _ => r) [] [] [] 1 1 0 = none ∧
    interpolate_lines [(((0 : ℝ), (0 : ℝ)), ((1 : ℝ), (0 : ℝ))),
      (((5 : ℝ), (5 : ℝ)), ((6 : ℝ), (5 : ℝ)))]
      [(((0 : ℝ), (0 : ℝ)), ((1 : ℝ), (0 : ℝ)))] 0 = none ∧
    interpolate_lines [(((0 : ℝ), (0 : ℝ)), ((1 : ℝ), (0 : ℝ)))]
        [(((0 : ℝ), (0 : ℝ)), ((1 : ℝ), (0 : ℝ))),
          (((5 : ℝ), (5 : ℝ)), ((6 : ℝ), (5 : ℝ)))] (1 / 2) =
      interpolate_lines [(((0 : ℝ), (0 : ℝ)), ((1 : ℝ), (0 : ℝ)))]
        ([(((0 : ℝ), (0 : ℝ)), ((1 : ℝ), (0 : ℝ))),
          (((5 : ℝ), (5 : ℝ)), ((6 : ℝ), (5 : ℝ)))].take
          ([(((0 : ℝ), (0 : ℝ)), ((1 : ℝ), (0 : ℝ)))] : List MLine).length) (1 / 2) ∧
    warp_kernel ((0 : ℝ), (0 : ℝ))
        [(((0 : ℝ), (0 : ℝ)), ((1 : ℝ), (0 : ℝ))),
          (((5 : ℝ), (5 : ℝ)), ((6 : ℝ), (5 : ℝ)))]
        [(((0 : ℝ), (0 : ℝ)), ((1 : ℝ), (0 : ℝ)))] 1 1 0 =
      warp_kernel ((0 : ℝ), (0 : ℝ))
        ([(((0 : ℝ), (0 : ℝ)), ((1 : ℝ), (0 : ℝ))),
          (((5 : ℝ), (5 : ℝ)), ((6 : ℝ), (5 : ℝ)))].take
          ([(((0 : ℝ), (0 : ℝ)), ((1 : ℝ), (0 : ℝ)))] : List MLine).length)
        [(((0 : ℝ), (0 : ℝ)), ((1 : ℝ), (0 : ℝ)))] 1 1 0 :=
  ⟨c4_error_contract_amended.1 [] [] (Or.inl rfl),
    c4_error_contract_amended.2.1 [] [(1 : ℝ)] (Or.inr (by simp)),
    c4_error_contract_amended.2.2.1 _ [(1 : ℝ), (1 : ℝ)]
      ⟨[], by simp, by simp⟩,
    c4_error_contract_amended.2.2.2.1 (fun r _ _ => r) [] [] [] 1 1 0 (Or.inl rfl),
    c4_error_contract_amended.2.2.2.2.1 _ _ 0 (by simp),
    c4_error_contract_amended.2.2.2.2.2.1 _ _ (1 / 2),
    c4_error_contract_amended.2.2.2.2.2.2 ((0 : ℝ), (0 : ℝ)) _ _ 1 1 0⟩

/-- C7: every weight vector is normalised the same way by all three N-way
operations: divided componentwise by the raw sum when that sum is
positive (the used weights then sum to 1), replaced by the uniform vector
1/N when the raw sum is non-positive (again summing to 1); and for valid
collections no weight vector makes any of the three operations fail. -/
theorem c7_weight_normalization :
    ∀ ws : List ℝ, ws ≠ [] →
      ((0 < ws.sum → normalize_weights ws = ws.map (fun w => w / ws.sum) ∧
          (normalize_weights ws).sum = 1) ∧
        (ws.sum ≤ 0 →
          normalize_weights ws = List.replicate ws.length (1 / (ws.length : ℝ)) ∧
          (normalize_weights ws).sum = 1)) ∧
      (∀ images : List Raster, images ≠ [] → images.length = ws.length →
        (blend_multiple_images images ws).isSome = true) ∧
      (∀ line_sets : List (List MLine), line_sets ≠ [] → line_sets.length = ws.length →
        (∀ ls ∈ line_sets, ls.length = (line_sets.headD []).length) →
        (interpolate_multiple_lines line_sets ws).isSome = true) ∧
      (∀ (resize : Raster → ℕ → ℕ → Raster) (images : List Raster)
          (line_sets : List (List MLine)) (a b p : ℝ),
        images ≠ [] → images.length = line_sets.length → line_sets.length = ws.length →
        (∀ ls ∈ line_sets, ls.length = (line_sets.headD []).length) →
        (merge_multiple_images resize images line_sets ws a b p).isSome = true) := by
  intro ws hne
  refine ⟨⟨fun hpos => ⟨?_, normalize_weights_sum_pos ws hpos⟩,
      fun hnp => ⟨?_, normalize_weights_sum_nonpos ws hne (not_lt.mpr hnp)⟩⟩,
    ?_, ?_, ?_⟩
  · rw [normalize_weights, if_pos hpos]
  · rw [normalize_weights, if_neg (not_lt.mpr hnp), List.map_const']
  · intro images h1 h2
    obtain ⟨out, hout, _, _⟩ := blend_multiple_isSome images ws h1 h2
    rw [hout]; rfl
  · intro line_sets h1 h2 h3
    obtain ⟨shared, hsh, _⟩ := interpolate_multiple_isSome line_sets ws h1 h2 h3
    rw [hsh]; rfl
  · intro resize images line_sets a b p h1 h2 h3 h4
    exact merge_multiple_isSome resize images line_sets ws a b p h1 h2 h3 h4

theorem c7_weight_normalization_witness :
    (normalize_weights [(2 : ℝ), (2 : ℝ)] =
        [(2 : ℝ), (2 : ℝ)].map (fun w => w / ([(2 : ℝ), (2 : ℝ)].sum)) ∧
      (normalize_weights [(2 : ℝ), (2 : ℝ)]).sum = 1) ∧
    (blend_multiple_images [⟨1, 1, fun _ _ => 3⟩] [(5 : ℝ)]).isSome = true ∧
    (interpolate_multiple_lines [[(((0 : ℝ), (0 : ℝ)), ((10 : ℝ), (0 : ℝ)))]]
      [(0 : ℝ)]).isSome = true ∧
    (merge_multiple_images (fun r _ _ => r) [⟨1, 1, fun _ _ => 3⟩]
      [[(((0 : ℝ), (0 : ℝ)), ((10 : ℝ), (0 : ℝ)))]] [(-1 : ℝ)] 1 1 0).isSome = true := by
  refine ⟨(c7_weight_normalization [(2 : ℝ), (2 : ℝ)] (by simp)).1.1 (by norm_num),
    (c7_weight_normalization [(5 : ℝ)] (by simp)).2.1 _ (by simp) (by simp),
    (c7_weight_normalization [(0 : ℝ)] (by simp)).2.2.1 _ (by simp) (by simp) ?_,
    (c7_weight_normalization [(-1 : ℝ)] (by simp)).2.2.2 (fun r _ _ => r) _ _ 1 1 0
      (by simp) (by simp) (by simp) ?_⟩
  · intro ls hls
    rw [List.mem_singleton] at hls
    subst hls
    rfl
  · intro ls hls
    rw [List.mem_singleton] at hls
    subst hls
    rfl

/-- C8: with a single raster, line set and positive weight, mergeMultiple
returns exactly the raster produced by warp(I, L, L, params): the shared
geometry is L itself and the one-element blend returns the warped raster
unchanged, for every positive weight and every uint8 raster. -/
theorem c8_merge_single (resize : Raster → ℕ → ℕ → Raster) (I : Raster) (L : List MLine)
    (w a b p : ℝ) (hw : 0 < w)
    (hr : ∀ y x, 0 ≤ I.pix y x ∧ I.pix y x < 256) :
    ∃ W, warp_image_with_lines I L L a b p = some W ∧
      merge_multiple_images resize [I] [L] [w] a b p = some (W, [W], L) :=
  ⟨⟨I.width, I.height, fun y x => warp_pixel I L L a b p y x⟩,
    warp_image_isSome I L L a b p (lt_irrefl _),
    merge_single resize I L w a b p hw hr⟩

theorem c8_merge_single_witness :
    ∃ W, warp_image_with_lines ⟨1, 1, fun _ _ => 7⟩
        [(((0 : ℝ), (0 : ℝ)), ((10 : ℝ), (0 : ℝ)))]
        [(((0 : ℝ), (0 : ℝ)), ((10 : ℝ), (0 : ℝ)))] 1 1 0 = some W ∧
      merge_multiple_images (fun r _ _ => r) [⟨1, 1, fun _ _ => 7⟩]
        [[(((0 : ℝ), (0 : ℝ)), ((10 : ℝ), (0 : ℝ)))]] [(2 : ℝ)] 1 1 0 =
        some (W, [W], [(((0 : ℝ), (0 : ℝ)), ((10 : ℝ), (0 : ℝ)))]) :=
  c8_merge_single (fun r _ _ => r) ⟨1, 1, fun _ _ => 7⟩
    [(((0 : ℝ), (0 : ℝ)), ((10 : ℝ), (0 : ℝ)))] 2 1 1 0 (by norm_num)
    (fun y x => by norm_num)

end
